import Mathlib

/-!
Verification development for the Food Expenses Tracker (src/food_tracker.py).

The program is a Streamlit CRUD app over one SQLite table
`expenses (id INTEGER PRIMARY KEY AUTOINCREMENT, date DATE, meal TEXT, amount REAL)`.

Embedding choices:
* a date is a (year, month, day) triple; SQLite stores dates as ISO strings
  and compares them as strings, which on valid dates is exactly the
  lexicographic order on (year, month, day);
* amounts (SQLite REAL) are modelled as rationals, so the aggregation
  identities are stated over exact arithmetic;
* the table is a list of rows in rowid order; AUTOINCREMENT assigns a fresh
  id strictly larger than every id already in the table;
* SQLite `LIKE` folds ASCII case, and Python `str.lower` lowers the ASCII
  letters of the labels involved, both modelled with `Char.toLower`.
-/

structure Date where
  year : Nat
  month : Nat
  day : Nat
deriving DecidableEq, Repr

/-- Lexicographic order on dates: the order SQLite's `BETWEEN` uses on
ISO-formatted date strings. -/
def Date.le (a b : Date) : Bool :=
  a.year < b.year ||
    (a.year == b.year &&
      (a.month < b.month || (a.month == b.month && a.day ≤ b.day)))

structure Row where
  id : Nat
  date : Date
  meal : String
  amount : ℚ
deriving DecidableEq, Repr

/-- `isPrefixL p l` decides whether the character list `p` is a prefix of `l`. -/
def isPrefixL : List Char → List Char → Bool
  | [], _ => true
  | _ :: _, [] => false
  | p :: ps, c :: cs => p == c && isPrefixL ps cs

/-- `containsL pat l` decides whether `pat` occurs as a contiguous substring
of `l` (Python's `pat in l`). -/
def containsL (pat : List Char) : List Char → Bool
  | [] => isPrefixL pat []
  | c :: cs => isPrefixL pat (c :: cs) || containsL pat cs

/-- ASCII lowering of a string, as a character list (`str.lower()`). -/
def lowerStr (s : String) : List Char := s.data.map Char.toLower

/-- `categorize_meal` from the Monthly Summary page (src/food_tracker.py
lines 267-276): keyword matching on the lowered meal label into the four
fixed categories. -/
def categorize_meal (meal : String) : String :=
  if containsL "breakfast".data (lowerStr meal) || containsL "morning".data (lowerStr meal) then
    "Breakfast"
  else if containsL "lunch".data (lowerStr meal) || containsL "afternoon".data (lowerStr meal) then
    "Lunch"
  else if containsL "dinner".data (lowerStr meal) || containsL "evening".data (lowerStr meal) then
    "Dinner"
  else
    "Other"

/-- The SQL condition `meal LIKE 'Other%' OR meal = 'Other'` used by the
Other-category read and deletes; `LIKE` is ASCII-case-insensitive. -/
def otherLike (meal : String) : Bool :=
  isPrefixL "other".data (lowerStr meal) || meal == "Other"

/-- The dictionary `{'Morning': 'Breakfast', 'Afternoon': 'Lunch',
'Evening': 'Dinner'}` as a lookup: legacy label to current label. -/
def oldToNew (m : String) : Option String :=
  if m == "Morning" then some "Breakfast"
  else if m == "Afternoon" then some "Lunch"
  else if m == "Evening" then some "Dinner"
  else none

/-- The row with the greatest id (SQL `ORDER BY id DESC LIMIT 1`). -/
def maxIdRow : List Row → Option Row
  | [] => none
  | r :: rs =>
    match maxIdRow rs with
    | none => some r
    | some r2 => if r.id ≤ r2.id then some r2 else some r

/-- `get_existing_amount` (src/food_tracker.py lines 47-60).  For "Other" it
returns the amount of the highest-id row matching `otherLike`; otherwise it
queries the exact label, and only when the argument itself is a legacy name
falls back to the mapped current name (the dictionary maps old names to new
ones, so no fallback happens when the argument is a current name). -/
def get_existing_amount (selected_date : Date) (meal_name : String)
    (tbl : List Row) : Option ℚ :=
  if meal_name == "Other" then
    (maxIdRow (tbl.filter (fun r => r.date == selected_date && otherLike r.meal))).map
      Row.amount
  else
    match (tbl.filter (fun r => r.date == selected_date && r.meal == meal_name)).head? with
    | some r => some r.amount
    | none =>
      match oldToNew meal_name with
      | some nn =>
        ((tbl.filter (fun r => r.date == selected_date && r.meal == nn)).head?).map
          Row.amount
      | none => none

/-- `delete_entry` (src/food_tracker.py lines 63-74): for "Other" it deletes
every `otherLike` row of the selected date; otherwise it normalizes a legacy
argument to the current name and deletes the rows carrying exactly that
current label. -/
def delete_entry (selected_date : Date) (meal_name : String)
    (tbl : List Row) : List Row :=
  if meal_name == "Other" then
    tbl.filter (fun r => !(r.date == selected_date && otherLike r.meal))
  else
    let mn := match oldToNew meal_name with
      | some nn => nn
      | none => meal_name
    tbl.filter (fun r => !(r.date == selected_date && r.meal == mn))

/-- The name normalization at the start of `save_entry` (lines 83-88): a
legacy name among the dictionary's values is replaced by its current name. -/
def normalizeSave (meal_name : String) : String :=
  match oldToNew meal_name with
  | some nn => nn
  | none => meal_name

/-- `full_meal` (line 91): `f"{meal_name}: {desc}"` when a non-empty
description accompanies "Other", else the name itself. -/
def fullMealLabel (meal_name desc : String) : String :=
  if desc != "" && meal_name == "Other" then meal_name ++ ": " ++ desc
  else meal_name

/-- A fresh AUTOINCREMENT id: strictly larger than every id in the table. -/
def nextId (tbl : List Row) : Nat := (tbl.map Row.id).foldr max 0 + 1

/-- The delete phase of `save_entry` (lines 80-89): remove the `otherLike`
rows of the date for "Other", else the rows with exactly the normalized
current label. -/
def saveDelete (selected_date : Date) (meal_name : String)
    (tbl : List Row) : List Row :=
  if meal_name == "Other" then
    tbl.filter (fun r => !(r.date == selected_date && otherLike r.meal))
  else
    tbl.filter (fun r => !(r.date == selected_date && r.meal == normalizeSave meal_name))

/-- `save_entry` (src/food_tracker.py lines 77-98): delete phase, then an
insert of the labelled row only when the amount is positive. -/
def save_entry (selected_date : Date) (meal_name : String) (amount : ℚ)
    (desc : String) (tbl : List Row) : List Row :=
  let afterDel := saveDelete selected_date meal_name tbl
  if amount > 0 then
    afterDel ++ [⟨nextId tbl, selected_date, fullMealLabel (normalizeSave meal_name) desc, amount⟩]
  else
    afterDel

/-- The "Clear All Today's Entries" action (lines 192-198):
`DELETE FROM expenses WHERE date = ?`. -/
def clearAllToday (selected_date : Date) (tbl : List Row) : List Row :=
  tbl.filter (fun r => !(r.date == selected_date))

/-- Sum of the amounts of a list of rows (`df['amount'].sum()`). -/
def sumAmounts (rows : List Row) : ℚ := (rows.map Row.amount).sum

/-- The Gregorian leap-year rule, as `dateutil`'s calendar implements it. -/
def isLeapYear (y : Nat) : Bool := (y % 4 == 0 && y % 100 != 0) || y % 400 == 0

/-- Number of days of month `m` of year `y`. -/
def daysInMonth (y m : Nat) : Nat :=
  if m == 2 then (if isLeapYear y then 29 else 28)
  else if m == 4 || m == 6 || m == 9 || m == 11 then 30
  else 31

/-- `month_start = selected_month.replace(day=1)` (line 238). -/
def month_start (s : Date) : Date := ⟨s.year, s.month, 1⟩

/-- `relativedelta(months=1)` (line 239): advance the month, clamping the day
to the target month's length. -/
def addOneMonth (d : Date) : Date :=
  let y := if d.month == 12 then d.year + 1 else d.year
  let m := if d.month == 12 then 1 else d.month + 1
  ⟨y, m, min d.day (daysInMonth y m)⟩

/-- `- timedelta(days=1)` (line 240). -/
def subOneDay (d : Date) : Date :=
  if d.day > 1 then ⟨d.year, d.month, d.day - 1⟩
  else if d.month == 1 then ⟨d.year - 1, 12, 31⟩
  else ⟨d.year, d.month - 1, daysInMonth d.year (d.month - 1)⟩

/-- `month_end` (lines 239-240). -/
def month_end (s : Date) : Date := subOneDay (addOneMonth (month_start s))

/-- The Monthly Summary range scan (lines 244-247):
`WHERE date BETWEEN month_start AND month_end`. -/
def monthScan (s : Date) (tbl : List Row) : List Row :=
  tbl.filter (fun r => Date.le (month_start s) r.date && Date.le r.date (month_end s))

/-- The displayed monthly total (line 263): sum of the scanned amounts. -/
def monthly_total (rows : List Row) : ℚ := sumAmounts rows

/-- The Daily Breakdown (lines 254-257): per-day totals, one per distinct
date occurring in the scanned rows. -/
def daily_totals (rows : List Row) : List (Date × ℚ) :=
  ((rows.map Row.date).dedup).map
    (fun d => (d, sumAmounts (rows.filter (fun r => r.date == d))))

/-- A By Meal Type total (lines 278-279): sum of the amounts of the rows
whose `categorize_meal` group is `c`. -/
def catTotal (c : String) (rows : List Row) : ℚ :=
  sumAmounts (rows.filter (fun r => categorize_meal r.meal == c))

/-- A calendar-valid date: the dates `st.date_input` can produce. -/
def validDate (d : Date) : Prop :=
  1 ≤ d.year ∧ 1 ≤ d.month ∧ d.month ≤ 12 ∧ 1 ≤ d.day ∧ d.day ≤ daysInMonth d.year d.month

instance (d : Date) : Decidable (validDate d) := by
  unfold validDate; infer_instance

/-- The four current meal categories. -/
def fourCats : List String := ["Breakfast", "Lunch", "Dinner", "Other"]

/-- The legacy meal labels. -/
def legacyLabels : List String := ["Morning", "Afternoon", "Evening"]

/-- A concrete date used by the concrete evaluations below. -/
def sampleDate : Date := ⟨2025, 9, 1⟩

/-- Some of the six category keywords occurs in the lowered label: the
disjunction of the conditions `categorize_meal` tests. -/
def hasAnyKeyword (meal : String) : Bool :=
  containsL "breakfast".data (lowerStr meal) || containsL "morning".data (lowerStr meal) ||
    containsL "lunch".data (lowerStr meal) || containsL "afternoon".data (lowerStr meal) ||
    containsL "dinner".data (lowerStr meal) || containsL "evening".data (lowerStr meal)

/-- The label pattern `delete_entry m` (and the delete phase of
`save_entry m`) matches, for `m` one of the four categories: the
`otherLike` pattern for "Other", the exact current label otherwise. -/
def deleteMatches (m meal : String) : Bool :=
  if m == "Other" then otherLike meal else meal == m

lemma categorize_mem_fourCats (meal : String) : categorize_meal meal ∈ fourCats := by
  unfold categorize_meal fourCats
  split
  · simp
  · split
    · simp
    · split <;> simp

lemma filter_not_filter (q : Row → Bool) (l : List Row) :
    (l.filter (fun r => !(q r))).filter q = [] := by
  induction l with
  | nil => rfl
  | cons r rs ih => by_cases h : q r <;> simp [List.filter_cons, h, ih]

lemma delete_entry_four (d : Date) (m : String) (tbl : List Row) (hm : m ∈ fourCats) :
    delete_entry d m tbl = tbl.filter (fun r => !(r.date == d && deleteMatches m r.meal)) := by
  simp only [fourCats, List.mem_cons, List.not_mem_nil, or_false] at hm
  rcases hm with h | h | h | h <;> subst h <;> rfl

lemma get_existing_amount_exact_none (d : Date) (m : String) (tbl : List Row)
    (hO : (m == "Other") = false) (hL : oldToNew m = none)
    (hf : tbl.filter (fun r => r.date == d && r.meal == m) = []) :
    get_existing_amount d m tbl = none := by
  unfold get_existing_amount
  rw [hO, hf, hL]
  rfl

lemma get_existing_amount_other_none (d : Date) (tbl : List Row)
    (hf : tbl.filter (fun r => r.date == d && otherLike r.meal) = []) :
    get_existing_amount d "Other" tbl = none := by
  unfold get_existing_amount
  rw [hf]
  rfl

/-- C2: `categorize_meal` is total into the four fixed categories; the
legacy labels map to their current counterparts, the current labels map to
themselves, and a string containing none of the six keywords maps to
"Other". -/
theorem categorize_meal_total_and_normalizes (meal : String) :
    (categorize_meal meal = "Breakfast" ∨ categorize_meal meal = "Lunch" ∨
      categorize_meal meal = "Dinner" ∨ categorize_meal meal = "Other")
    ∧ categorize_meal "Morning" = "Breakfast"
    ∧ categorize_meal "Afternoon" = "Lunch"
    ∧ categorize_meal "Evening" = "Dinner"
    ∧ categorize_meal "Breakfast" = "Breakfast"
    ∧ categorize_meal "Lunch" = "Lunch"
    ∧ categorize_meal "Dinner" = "Dinner"
    ∧ categorize_meal "Other" = "Other"
    ∧ (hasAnyKeyword meal = false → categorize_meal meal = "Other") := by
  refine ⟨?_, by decide, by decide, by decide, by decide, by decide, by decide, by decide, ?_⟩
  · have h := categorize_mem_fourCats meal
    simpa [fourCats] using h
  · intro h
    unfold hasAnyKeyword at h
    obtain ⟨h, h6⟩ := Bool.or_eq_false_iff.mp h
    obtain ⟨h, h5⟩ := Bool.or_eq_false_iff.mp h
    obtain ⟨h, h4⟩ := Bool.or_eq_false_iff.mp h
    obtain ⟨h, h3⟩ := Bool.or_eq_false_iff.mp h
    obtain ⟨h1, h2⟩ := Bool.or_eq_false_iff.mp h
    unfold categorize_meal
    rw [h1, h2, h3, h4, h5, h6]
    rfl

/-- C2 witness: a concrete keyword-free string is categorized as "Other". -/
theorem categorize_meal_total_and_normalizes_witness :
    categorize_meal "veg sandwich 50" = "Other" :=
  (categorize_meal_total_and_normalizes "veg sandwich 50").2.2.2.2.2.2.2.2 (by decide)

/-- C1: evaluation at the failing input.  Saving Breakfast for a date that
already holds a legacy "Morning" row deletes only under the current label,
so the "Morning" row survives and the table ends with two rows of the
Breakfast category for that date instead of exactly one. -/
theorem save_entry_over_legacy_leaves_two_rows :
    save_entry sampleDate "Breakfast" 10 "" [⟨1, sampleDate, "Morning", 5⟩]
      = [⟨1, sampleDate, "Morning", 5⟩, ⟨2, sampleDate, "Breakfast", 10⟩]
    ∧ ((save_entry sampleDate "Breakfast" 10 "" [⟨1, sampleDate, "Morning", 5⟩]).filter
        (fun r => r.date == sampleDate && categorize_meal r.meal == "Breakfast")).length
      = 2 := by
  constructor
  · decide
  · decide

/-- C7: evaluation at the failing input.  With only a legacy "Morning" row
stored for the date, `get_existing_amount "Breakfast"` returns no amount:
the backward-compatibility fallback maps old names to new ones, so it never
fires when the argument is the current name the interface passes. -/
theorem get_existing_amount_ignores_legacy_row :
    get_existing_amount sampleDate "Breakfast" [⟨1, sampleDate, "Morning", 50⟩] = none
    ∧ categorize_meal "Morning" = "Breakfast" := by
  constructor
  · decide
  · decide

/-- C4 counterexample: `delete_entry "Breakfast"` leaves a legacy "Morning"
row of the selected date untouched, although that row belongs to the
Breakfast category; deletion does not remove entries stored under legacy
labels. -/
theorem delete_entry_keeps_legacy_row :
    delete_entry sampleDate "Breakfast" [⟨1, sampleDate, "Morning", 5⟩]
      = [⟨1, sampleDate, "Morning", 5⟩]
    ∧ categorize_meal "Morning" = "Breakfast" := by
  constructor
  · decide
  · decide

/-- C4 as amended: for each of the four categories, after `delete_entry m`
the read-back `get_existing_amount m` returns none, and no row carrying the
current label `m` remains for the date; a row under a legacy label, however,
is merely invisible to the read, not removed. -/
theorem delete_entry_then_get_existing_none (tbl : List Row) (d : Date) (m : String)
    (hm : m ∈ fourCats) :
    get_existing_amount d m (delete_entry d m tbl) = none
    ∧ ∀ r ∈ delete_entry d m tbl, ¬(r.date = d ∧ r.meal = m) := by
  have hdel := delete_entry_four d m tbl hm
  simp only [fourCats, List.mem_cons, List.not_mem_nil, or_false] at hm
  constructor
  · rcases hm with h | h | h | h <;> subst h
    · exact get_existing_amount_exact_none d "Breakfast" _ (by decide) rfl
        (filter_not_filter (fun r => r.date == d && r.meal == "Breakfast") tbl)
    · exact get_existing_amount_exact_none d "Lunch" _ (by decide) rfl
        (filter_not_filter (fun r => r.date == d && r.meal == "Lunch") tbl)
    · exact get_existing_amount_exact_none d "Dinner" _ (by decide) rfl
        (filter_not_filter (fun r => r.date == d && r.meal == "Dinner") tbl)
    · exact get_existing_amount_other_none d _
        (filter_not_filter (fun r => r.date == d && otherLike r.meal) tbl)
  · intro r hr hcon
    rw [hdel] at hr
    have hq := (List.mem_filter.mp hr).2
    obtain ⟨hd, hm'⟩ := hcon
    rw [hd, hm'] at hq
    rcases hm with h | h | h | h <;> subst h <;>
      simp [deleteMatches, otherLike, lowerStr, isPrefixL] at hq

/-- C4 witness: a concrete run of delete-then-read returning none. -/
theorem delete_entry_then_get_existing_none_witness :
    get_existing_amount sampleDate "Lunch"
      (delete_entry sampleDate "Lunch" [⟨1, sampleDate, "Lunch", 80⟩]) = none :=
  (delete_entry_then_get_existing_none [⟨1, sampleDate, "Lunch", 80⟩] sampleDate "Lunch"
    (by decide)).1

lemma saveDelete_four (d : Date) (m : String) (tbl : List Row) (hm : m ∈ fourCats) :
    saveDelete d m tbl = tbl.filter (fun r => !(r.date == d && deleteMatches m r.meal)) := by
  simp only [fourCats, List.mem_cons, List.not_mem_nil, or_false] at hm
  rcases hm with h | h | h | h <;> subst h <;> rfl

lemma saveDelete_subset (d : Date) (m : String) (tbl : List Row) :
    ∀ r ∈ saveDelete d m tbl, r ∈ tbl := by
  intro r hr
  unfold saveDelete at hr
  split at hr <;> exact (List.mem_filter.mp hr).1

lemma deleteMatches_self_false (d : Date) (m : String) (hm : m ∈ fourCats)
    (hq : (!(d == d && deleteMatches m m)) = true) : False := by
  simp only [fourCats, List.mem_cons, List.not_mem_nil, or_false] at hm
  rcases hm with h | h | h | h <;> subst h <;>
    simp [deleteMatches, otherLike, lowerStr, isPrefixL] at hq

/-- C8: a non-positive amount (such as the 0.0 parsed from an empty or
unparsable input) makes `save_entry` act purely as its delete phase: the
result is exactly `saveDelete`, keeps only rows of the original table, and
retains no row with the current label `m` for the date; moreover no call of
`save_entry`, for any amount, ever inserts a row with non-positive amount. -/
theorem save_entry_nonpositive_deletes (tbl : List Row) (d : Date) (m : String)
    (a : ℚ) (desc : String) (hm : m ∈ fourCats) :
    (a ≤ 0 →
      save_entry d m a desc tbl = saveDelete d m tbl
      ∧ ∀ r ∈ save_entry d m a desc tbl, r ∈ tbl ∧ ¬(r.date = d ∧ r.meal = m))
    ∧ ∀ r ∈ save_entry d m a desc tbl, r ∈ tbl ∨ 0 < r.amount := by
  constructor
  · intro ha
    have hif : save_entry d m a desc tbl = saveDelete d m tbl := by
      unfold save_entry
      rw [if_neg (not_lt.mpr ha)]
    refine ⟨hif, ?_⟩
    intro r hr
    rw [hif, saveDelete_four d m tbl hm] at hr
    obtain ⟨hmem, hq⟩ := List.mem_filter.mp hr
    refine ⟨hmem, ?_⟩
    rintro ⟨hd, hm'⟩
    rw [hd, hm'] at hq
    exact deleteMatches_self_false d m hm hq
  · intro r hr
    unfold save_entry at hr
    by_cases hpos : a > 0
    · rw [if_pos hpos] at hr
      rcases List.mem_append.mp hr with h | h
      · exact Or.inl (saveDelete_subset d m tbl r h)
      · simp only [List.mem_singleton] at h
        subst h
        exact Or.inr hpos
    · rw [if_neg hpos] at hr
      exact Or.inl (saveDelete_subset d m tbl r hr)

/-- C8 witness: saving amount 0 over an existing Breakfast row deletes it. -/
theorem save_entry_nonpositive_deletes_witness :
    save_entry sampleDate "Breakfast" 0 "" [⟨1, sampleDate, "Breakfast", 5⟩]
      = saveDelete sampleDate "Breakfast" [⟨1, sampleDate, "Breakfast", 5⟩] :=
  ((save_entry_nonpositive_deletes [⟨1, sampleDate, "Breakfast", 5⟩] sampleDate
    "Breakfast" 0 "" (by decide)).1 (by norm_num)).1

lemma other_desc_not_legacy (desc : String) :
    ("Other" ++ ": " ++ desc) ∉ legacyLabels := by
  have hd : ("Other" ++ ": " ++ desc).data
      = 'O' :: 't' :: 'h' :: 'e' :: 'r' :: ':' :: ' ' :: desc.data := rfl
  simp only [legacyLabels, List.mem_cons, List.not_mem_nil, or_false]
  push_neg
  refine ⟨?_, ?_, ?_⟩ <;> intro h <;> have hdata := congrArg String.data h <;>
    rw [hd] at hdata <;> simp at hdata

lemma normalizeSave_not_legacy (m : String) : normalizeSave m ∉ legacyLabels := by
  by_cases h1 : m = "Morning"
  · subst h1; decide
  · by_cases h2 : m = "Afternoon"
    · subst h2; decide
    · by_cases h3 : m = "Evening"
      · subst h3; decide
      · have e1 : (m == "Morning") = false := beq_eq_false_iff_ne.mpr h1
        have e2 : (m == "Afternoon") = false := beq_eq_false_iff_ne.mpr h2
        have e3 : (m == "Evening") = false := beq_eq_false_iff_ne.mpr h3
        unfold normalizeSave oldToNew
        rw [e1, e2, e3]
        simp [legacyLabels, h1, h2, h3]

lemma fullMealLabel_not_legacy (m desc : String) :
    fullMealLabel (normalizeSave m) desc ∉ legacyLabels := by
  unfold fullMealLabel
  split
  case isTrue h =>
    have hOm : normalizeSave m = "Other" := by
      have h2 : (desc != "") = true ∧ (normalizeSave m == "Other") = true := by
        simpa using h
      exact eq_of_beq h2.2
    rw [hOm]
    exact other_desc_not_legacy desc
  case isFalse h =>
    exact normalizeSave_not_legacy m

lemma fullMealLabel_form (m desc : String) (hm : m ∈ fourCats) :
    fullMealLabel (normalizeSave m) desc ∈ fourCats
    ∨ (m = "Other" ∧ desc ≠ ""
        ∧ fullMealLabel (normalizeSave m) desc = "Other: " ++ desc) := by
  simp only [fourCats, List.mem_cons, List.not_mem_nil, or_false] at hm
  rcases hm with h | h | h | h <;> subst h
  · left
    have he : fullMealLabel (normalizeSave "Breakfast") desc = "Breakfast" := by
      unfold fullMealLabel
      rw [show (normalizeSave "Breakfast" == "Other") = false from rfl, Bool.and_false]
      rfl
    rw [he]
    decide
  · left
    have he : fullMealLabel (normalizeSave "Lunch") desc = "Lunch" := by
      unfold fullMealLabel
      rw [show (normalizeSave "Lunch" == "Other") = false from rfl, Bool.and_false]
      rfl
    rw [he]
    decide
  · left
    have he : fullMealLabel (normalizeSave "Dinner") desc = "Dinner" := by
      unfold fullMealLabel
      rw [show (normalizeSave "Dinner" == "Other") = false from rfl, Bool.and_false]
      rfl
    rw [he]
    decide
  · by_cases hdesc : desc = ""
    · subst hdesc
      left
      decide
    · right
      refine ⟨rfl, hdesc, ?_⟩
      unfold fullMealLabel
      rw [show (normalizeSave "Other" == "Other") = true from rfl, Bool.and_true,
        show ((desc != "") = true) from bne_iff_ne.mpr hdesc]
      rfl

/-- C9: every row of a `save_entry` result either was already in the table
or carries one of the four current labels or an "Other: desc" label, and in
no case a legacy label: `save_entry` never inserts "Morning", "Afternoon"
or "Evening". -/
theorem save_entry_inserts_only_current_labels (tbl : List Row) (d : Date)
    (m : String) (a : ℚ) (desc : String) :
    ∀ r ∈ save_entry d m a desc tbl,
      r ∈ tbl ∨
        (r.meal ∉ legacyLabels
          ∧ (m ∈ fourCats →
              r.meal ∈ fourCats
              ∨ (m = "Other" ∧ desc ≠ "" ∧ r.meal = "Other: " ++ desc))) := by
  intro r hr
  unfold save_entry at hr
  by_cases hpos : a > 0
  · rw [if_pos hpos] at hr
    rcases List.mem_append.mp hr with h | h
    · exact Or.inl (saveDelete_subset d m tbl r h)
    · simp only [List.mem_singleton] at h
      subst h
      exact Or.inr ⟨fullMealLabel_not_legacy m desc, fullMealLabel_form m desc⟩
  · rw [if_neg hpos] at hr
    exact Or.inl (saveDelete_subset d m tbl r hr)

/-- C9 witness: a concrete save of an "Other" entry with a description
yields the "Other: desc" label, which is not a legacy label. -/
theorem save_entry_inserts_only_current_labels_witness :
    (⟨1, sampleDate, "Other: snack", 20⟩ : Row) ∈ ([] : List Row) ∨
      (("Other: snack" : String) ∉ legacyLabels
        ∧ (("Other" : String) ∈ fourCats →
            ("Other: snack" : String) ∈ fourCats
            ∨ (("Other" : String) = "Other" ∧ ("snack" : String) ≠ ""
                ∧ ("Other: snack" : String) = "Other: " ++ "snack"))) :=
  save_entry_inserts_only_current_labels [] sampleDate "Other" 20 "snack"
    ⟨1, sampleDate, "Other: snack", 20⟩ (by decide)

/-- C10 counterexample: `delete_entry "Other"` removes a same-date row
labelled "Other: lunch", although `categorize_meal` puts that row in the
Lunch category, not Other — a same-date row of a different meal category is
not left unchanged. -/
theorem delete_entry_other_removes_lunch_category_row :
    delete_entry sampleDate "Other" [⟨1, sampleDate, "Other: lunch", 30⟩] = []
    ∧ categorize_meal "Other: lunch" = "Lunch" := by
  constructor
  · decide
  · decide

/-- C10 as amended: "Clear All Today's Entries" keeps exactly the rows of
other dates; `delete_entry m` only ever removes rows, keeps every row of a
different date, and keeps every same-date row whose label does not match
`m`'s deletion pattern (exact current label for Breakfast/Lunch/Dinner, the
case-insensitive "Other" prefix for Other) — but a same-date row matching
that pattern is deleted even when `categorize_meal` assigns it another
category. -/
theorem clear_and_delete_frame (tbl : List Row) (d : Date) (m : String)
    (hm : m ∈ fourCats) :
    (∀ r, r ∈ clearAllToday d tbl ↔ r ∈ tbl ∧ r.date ≠ d)
    ∧ (∀ r ∈ delete_entry d m tbl, r ∈ tbl)
    ∧ (∀ r ∈ tbl, r.date ≠ d → r ∈ delete_entry d m tbl)
    ∧ (∀ r ∈ tbl, deleteMatches m r.meal = false → r ∈ delete_entry d m tbl) := by
  refine ⟨?_, ?_, ?_, ?_⟩
  · intro r
    simp [clearAllToday, List.mem_filter]
  · intro r hr
    rw [delete_entry_four d m tbl hm] at hr
    exact (List.mem_filter.mp hr).1
  · intro r hr hd
    rw [delete_entry_four d m tbl hm]
    refine List.mem_filter.mpr ⟨hr, ?_⟩
    rw [beq_eq_false_iff_ne.mpr hd]
    rfl
  · intro r hr hq
    rw [delete_entry_four d m tbl hm]
    refine List.mem_filter.mpr ⟨hr, ?_⟩
    rw [hq, Bool.and_false]
    rfl

/-- C10 witness: a same-date Lunch row survives `delete_entry "Breakfast"`. -/
theorem clear_and_delete_frame_witness :
    (⟨1, sampleDate, "Lunch", 10⟩ : Row)
      ∈ delete_entry sampleDate "Breakfast" [⟨1, sampleDate, "Lunch", 10⟩] :=
  (clear_and_delete_frame [⟨1, sampleDate, "Lunch", 10⟩] sampleDate "Breakfast"
    (by decide)).2.2.2 ⟨1, sampleDate, "Lunch", 10⟩ (by decide) (by decide)

/-- C3 counterexample: saving an Other entry with description "lunch"
stores the label "Other: lunch", which `categorize_meal` buckets under
Lunch, not Other — the saved entry is counted under a different category
than it was saved as. -/
theorem save_other_lunch_desc_miscategorized :
    save_entry sampleDate "Other" 5 "lunch" [] = [⟨1, sampleDate, "Other: lunch", 5⟩]
    ∧ categorize_meal "Other: lunch" = "Lunch" := by
  constructor
  · decide
  · decide

lemma categorize_other_desc (desc : String) (h : hasAnyKeyword desc = false) :
    categorize_meal ("Other" ++ ": " ++ desc) = "Other" := by
  unfold hasAnyKeyword at h
  obtain ⟨h, h6⟩ := Bool.or_eq_false_iff.mp h
  obtain ⟨h, h5⟩ := Bool.or_eq_false_iff.mp h
  obtain ⟨h, h4⟩ := Bool.or_eq_false_iff.mp h
  obtain ⟨h, h3⟩ := Bool.or_eq_false_iff.mp h
  obtain ⟨h1, h2⟩ := Bool.or_eq_false_iff.mp h
  have hl : lowerStr ("Other" ++ ": " ++ desc)
      = 'o' :: 't' :: 'h' :: 'e' :: 'r' :: ':' :: ' ' :: lowerStr desc := rfl
  have c1 : containsL "breakfast".data (lowerStr ("Other" ++ ": " ++ desc)) = false := by
    rw [hl]; simp [containsL, isPrefixL, h1]
  have c2 : containsL "morning".data (lowerStr ("Other" ++ ": " ++ desc)) = false := by
    rw [hl]; simp [containsL, isPrefixL, h2]
  have c3 : containsL "lunch".data (lowerStr ("Other" ++ ": " ++ desc)) = false := by
    rw [hl]; simp [containsL, isPrefixL, h3]
  have c4 : containsL "afternoon".data (lowerStr ("Other" ++ ": " ++ desc)) = false := by
    rw [hl]; simp [containsL, isPrefixL, h4]
  have c5 : containsL "dinner".data (lowerStr ("Other" ++ ": " ++ desc)) = false := by
    rw [hl]; simp [containsL, isPrefixL, h5]
  have c6 : containsL "evening".data (lowerStr ("Other" ++ ": " ++ desc)) = false := by
    rw [hl]; simp [containsL, isPrefixL, h6]
  unfold categorize_meal
  rw [c1, c2, c3, c4, c5, c6]
  rfl

/-- C3 as amended: the label stored by `save_entry` categorizes back to the
category it was saved as, for Breakfast, Lunch and Dinner always, and for
Other exactly when the description contains none of the six category
keywords; a keyword-bearing description makes the "Other: desc" label
categorize under that keyword's category instead. -/
theorem saved_label_categorizes_back (m desc : String) (hm : m ∈ fourCats) :
    (m ≠ "Other" → categorize_meal (fullMealLabel (normalizeSave m) desc) = m)
    ∧ (m = "Other" → hasAnyKeyword desc = false →
        categorize_meal (fullMealLabel (normalizeSave m) desc) = m) := by
  constructor
  · intro hne
    simp only [fourCats, List.mem_cons, List.not_mem_nil, or_false] at hm
    rcases hm with h | h | h | h <;> subst h
    · have he : fullMealLabel (normalizeSave "Breakfast") desc = "Breakfast" := by
        unfold fullMealLabel
        rw [show (normalizeSave "Breakfast" == "Other") = false from rfl, Bool.and_false]
        rfl
      rw [he]; decide
    · have he : fullMealLabel (normalizeSave "Lunch") desc = "Lunch" := by
        unfold fullMealLabel
        rw [show (normalizeSave "Lunch" == "Other") = false from rfl, Bool.and_false]
        rfl
      rw [he]; decide
    · have he : fullMealLabel (normalizeSave "Dinner") desc = "Dinner" := by
        unfold fullMealLabel
        rw [show (normalizeSave "Dinner" == "Other") = false from rfl, Bool.and_false]
        rfl
      rw [he]; decide
    · exact absurd rfl hne
  · intro hO hkw
    subst hO
    by_cases hdesc : desc = ""
    · subst hdesc
      decide
    · have he : fullMealLabel (normalizeSave "Other") desc = "Other" ++ ": " ++ desc := by
        unfold fullMealLabel
        rw [show (normalizeSave "Other" == "Other") = true from rfl, Bool.and_true,
          show ((desc != "") = true) from bne_iff_ne.mpr hdesc]
        rfl
      rw [he]
      exact categorize_other_desc desc hkw

/-- C3 witness: a keyword-free Other description round-trips to Other. -/
theorem saved_label_categorizes_back_witness :
    categorize_meal (fullMealLabel (normalizeSave "Other") "snack") = "Other" :=
  (saved_label_categorizes_back "Other" "snack" (by decide)).2 rfl (by decide)

lemma sumAmounts_filter_partition (p : Row → Bool) (l : List Row) :
    sumAmounts (l.filter p) + sumAmounts (l.filter (fun r => !(p r))) = sumAmounts l := by
  induction l with
  | nil => simp [sumAmounts]
  | cons r rs ih =>
    by_cases h : p r = true <;>
      simp [sumAmounts, List.filter_cons, h] at ih ⊢ <;> linarith [ih]

lemma sum_over_keys (key : Row → Date) (ks : List Date) (rows : List Row)
    (hnd : ks.Nodup) (hcov : ∀ r ∈ rows, key r ∈ ks) :
    (ks.map (fun k => sumAmounts (rows.filter (fun r => key r == k)))).sum
      = sumAmounts rows := by
  induction ks generalizing rows with
  | nil =>
    have hempty : rows = [] := by
      cases rows with
      | nil => rfl
      | cons r rs => exact absurd (hcov r (List.mem_cons_self r rs)) (List.not_mem_nil _)
    subst hempty
    simp [sumAmounts]
  | cons k ks ih =>
    have hk_not : k ∉ ks := (List.nodup_cons.mp hnd).1
    have hnd' : ks.Nodup := (List.nodup_cons.mp hnd).2
    have hmap : ∀ k' ∈ ks,
        rows.filter (fun r => key r == k')
          = (rows.filter (fun r => !(key r == k))).filter (fun r => key r == k') := by
      intro k' hk'
      rw [List.filter_filter]
      apply List.filter_congr
      intro r _hr
      by_cases h : key r = k'
      · have hk'k : k' ≠ k := fun hc => hk_not (hc ▸ hk')
        have hne : (key r == k) = false := beq_eq_false_iff_ne.mpr (by rw [h]; exact hk'k)
        simp [h, hne]
        exact hk'k
      · simp [beq_eq_false_iff_ne.mpr h]
    have hcov' : ∀ r ∈ rows.filter (fun r => !(key r == k)), key r ∈ ks := by
      intro r hr
      obtain ⟨hmem, hq⟩ := List.mem_filter.mp hr
      have := hcov r hmem
      rcases List.mem_cons.mp this with h | h
      · rw [h] at hq
        simp at hq
      · exact h
    have hrec := ih (rows.filter (fun r => !(key r == k))) hnd' hcov'
    have hcong : (ks.map (fun k' => sumAmounts (rows.filter (fun r => key r == k')))).sum
        = (ks.map (fun k' => sumAmounts
            ((rows.filter (fun r => !(key r == k))).filter (fun r => key r == k')))).sum := by
      congr 1
      exact List.map_congr_left (fun k' hk' => by rw [hmap k' hk'])
    calc ((k :: ks).map (fun k' => sumAmounts (rows.filter (fun r => key r == k')))).sum
        = sumAmounts (rows.filter (fun r => key r == k))
            + (ks.map (fun k' => sumAmounts (rows.filter (fun r => key r == k')))).sum := by
          simp
      _ = sumAmounts (rows.filter (fun r => key r == k))
            + sumAmounts (rows.filter (fun r => !(key r == k))) := by
          rw [hcong, hrec]
      _ = sumAmounts rows := sumAmounts_filter_partition _ rows

lemma catTotal_partition (rows : List Row) :
    catTotal "Breakfast" rows + catTotal "Lunch" rows + catTotal "Dinner" rows
      + catTotal "Other" rows = sumAmounts rows := by
  induction rows with
  | nil => simp [catTotal, sumAmounts]
  | cons r rs ih =>
    have h4 := categorize_mem_fourCats r.meal
    simp only [fourCats, List.mem_cons, List.not_mem_nil, or_false] at h4
    rcases h4 with h | h | h | h <;>
      simp [catTotal, sumAmounts, List.filter_cons, h] at ih ⊢ <;> linarith [ih]

/-- C5: the displayed monthly total equals the sum of the per-day totals of
the Daily Breakdown and equals the sum of the four per-category totals of
the By Meal Type breakdown: both groupings preserve the overall sum. -/
theorem monthly_total_decompositions (rows : List Row) :
    monthly_total rows = ((daily_totals rows).map Prod.snd).sum
    ∧ monthly_total rows
      = catTotal "Breakfast" rows + catTotal "Lunch" rows + catTotal "Dinner" rows
        + catTotal "Other" rows := by
  constructor
  · unfold monthly_total daily_totals
    rw [List.map_map]
    have hsum := sum_over_keys Row.date ((rows.map Row.date).dedup) rows
      (List.nodup_dedup _)
      (fun r hr => List.mem_dedup.mpr (List.mem_map_of_mem Row.date hr))
    rw [← hsum]
    rfl
  · exact (catTotal_partition rows).symm

lemma one_le_daysInMonth (y m : Nat) : 1 ≤ daysInMonth y m := by
  unfold daysInMonth
  split
  · split <;> omega
  · split <;> omega

lemma month_end_eq (s : Date) (hs : validDate s) :
    month_end s = ⟨s.year, s.month, daysInMonth s.year s.month⟩ := by
  obtain ⟨hy, hm1, hm12, _hd1, _hd2⟩ := hs
  unfold month_end month_start addOneMonth subOneDay
  by_cases h12 : s.month = 12
  · simp [h12, daysInMonth, isLeapYear]
  · have hne : (s.month == 12) = false := beq_eq_false_iff_ne.mpr h12
    have hm1' : (s.month + 1 == 1) = false := by
      rw [beq_eq_false_iff_ne]
      omega
    simp only [hne, Bool.false_eq_true, if_false]
    rw [Nat.min_eq_left (one_le_daysInMonth s.year (s.month + 1))]
    simp [hm1', Nat.add_sub_cancel]

lemma inRange_iff_same_month (s d : Date) (hs : validDate s) (hd : validDate d) :
    (Date.le (month_start s) d && Date.le d (month_end s)) = true
      ↔ (d.year = s.year ∧ d.month = s.month) := by
  obtain ⟨hdy, hdm1, hdm12, hdd1, hdd2⟩ := hd
  rw [month_end_eq s hs]
  simp only [month_start, Date.le, Bool.and_eq_true, Bool.or_eq_true, decide_eq_true_eq,
    beq_iff_eq]
  constructor
  · intro h
    omega
  · rintro ⟨hy, hm⟩
    rw [hy, hm] at hdd2
    rw [hy, hm]
    omega

/-- C6: `month_start` is the first day of the selected date's month,
`month_end` its last day (leap Februaries and December included), and the
Monthly Summary range scan keeps a row exactly when its date lies in the
same calendar month and year as the selected date. -/
theorem monthScan_selects_calendar_month (s : Date) (tbl : List Row) (r : Row)
    (hs : validDate s) (hr : validDate r.date) :
    month_start s = ⟨s.year, s.month, 1⟩
    ∧ month_end s = ⟨s.year, s.month, daysInMonth s.year s.month⟩
    ∧ (r ∈ monthScan s tbl ↔ r ∈ tbl ∧ r.date.year = s.year ∧ r.date.month = s.month) := by
  refine ⟨rfl, month_end_eq s hs, ?_⟩
  unfold monthScan
  rw [List.mem_filter]
  constructor
  · rintro ⟨h1, h2⟩
    exact ⟨h1, (inRange_iff_same_month s r.date hs hr).mp h2⟩
  · rintro ⟨h1, h2⟩
    exact ⟨h1, (inRange_iff_same_month s r.date hs hr).mpr h2⟩

/-- C6 witness: February 29 of leap year 2024 is kept by the scan for a
selection mid-February 2024. -/
theorem monthScan_selects_calendar_month_witness :
    (⟨1, ⟨2024, 2, 29⟩, "Lunch", 5⟩ : Row)
      ∈ monthScan ⟨2024, 2, 15⟩ [⟨1, ⟨2024, 2, 29⟩, "Lunch", 5⟩] :=
  ((monthScan_selects_calendar_month ⟨2024, 2, 15⟩ [⟨1, ⟨2024, 2, 29⟩, "Lunch", 5⟩]
      ⟨1, ⟨2024, 2, 29⟩, "Lunch", 5⟩ (by decide) (by decide)).2.2).mpr
    ⟨List.mem_singleton.mpr rfl, rfl, rfl⟩
